import Mathlib

/-!
Verification of the phase-vocoder pipeline (phasevocmodule.c): a shallow
embedding of the PVAnal analyzer, PVSynth synthesizer and the PVTranspose,
PVVerb and PVGate spectral transformers, together with proofs of the
documented properties.  Machine floats are idealized as real numbers (or as
rationals where the code uses only field operations), C int indices as
naturals (as integers where sign matters), and the external FFT primitive,
window generator and parameter streams are taken as parameters.
-/

namespace PV

/-- Embedding of isPowerOfTwo (phasevocmodule.c lines 32-35):
returns (x != 0) && ((x & (x - 1)) == 0). -/
def isPowerOfTwo (x : ℕ) : Bool :=
  x ≠ 0 && (x &&& (x - 1)) == 0

/-- Embedding of the snapping loop used by PVAnal_new, PVAnal_setSize and
PVAnal_setOverlaps: k starts at 1 and doubles while k < v.  The positivity
of k (invariant of the C loop, which starts at k = 1) is carried as a proof
argument for termination. -/
def snapLoop (v : ℕ) (k : ℕ) (hk : 0 < k) : ℕ :=
  if h : k < v then snapLoop v (2 * k) (by omega) else k
termination_by v - k
decreasing_by omega

/-- Value of size (resp. olaps) after the power-of-two check: the C code
runs the doubling loop only when isPowerOfTwo fails (lines 241-247,
271-277, 291-297). -/
def snapPow2 (v : ℕ) : ℕ :=
  if isPowerOfTwo v then v else snapLoop v 1 (by decide)

/-- State of a PVAnal node (struct PVAnal, lines 37-63).  MYFLT buffers are
modelled as total functions from indices; the published tables magn and
freq are indexed by overlap slot then bin. -/
structure PVAnalSt where
  size : ℕ
  olaps : ℕ
  hsize : ℕ
  hopsize : ℕ
  inputLatency : ℕ
  incount : ℕ
  overcount : ℕ
  sr : ℝ
  factor : ℝ
  scale : ℝ
  input_buffer : ℕ → ℝ
  inframe : ℕ → ℝ
  outframe : ℕ → ℝ
  real : ℕ → ℝ
  imag : ℕ → ℝ
  lastPhase : ℕ → ℝ
  magn : ℕ → ℕ → ℝ
  freq : ℕ → ℕ → ℝ
  count : ℕ → ℕ

/-- Analyzer coefficient factor = sr / (hopsize * TWOPI) (line 71). -/
noncomputable def PVAnal_factor (sr : ℝ) (hopsize : ℕ) : ℝ :=
  sr / (hopsize * (2 * Real.pi))

/-- Analyzer coefficient scale = TWOPI * hopsize / size (line 72). -/
noncomputable def PVAnal_scale (size hopsize : ℕ) : ℝ :=
  2 * Real.pi * hopsize / size

/-- Embedding of PVAnal_realloc_memories (lines 66-108): recomputes the
derived configuration from size and olaps, zeroes all buffers, and sets
every entry of count to the new incount. -/
noncomputable def PVAnal_realloc_st (s : PVAnalSt) : PVAnalSt :=
  let hsize := s.size / 2
  let hopsize := s.size / s.olaps
  let inputLatency := s.size - hopsize
  { s with
    hsize := hsize
    hopsize := hopsize
    factor := PVAnal_factor s.sr hopsize
    scale := PVAnal_scale s.size hopsize
    inputLatency := inputLatency
    incount := inputLatency
    overcount := 0
    input_buffer := fun _ => 0
    inframe := fun _ => 0
    outframe := fun _ => 0
    lastPhase := fun _ => 0
    real := fun _ => 0
    imag := fun _ => 0
    magn := fun _ _ => 0
    freq := fun _ _ => 0
    count := fun _ => inputLatency }

/-- Fresh PVAnal state before the first reallocation, holding the requested
configuration (PVAnal_new, lines 215-256, before the realloc call). -/
def PVAnal_base (sr : ℝ) (size olaps : ℕ) : PVAnalSt :=
  { size := size, olaps := olaps, hsize := 0, hopsize := 0
    inputLatency := 0, incount := 0, overcount := 0
    sr := sr, factor := 0, scale := 0
    input_buffer := fun _ => 0, inframe := fun _ => 0, outframe := fun _ => 0
    real := fun _ => 0, imag := fun _ => 0, lastPhase := fun _ => 0
    magn := fun _ _ => 0, freq := fun _ _ => 0, count := fun _ => 0 }

/-- Embedding of PVAnal_new (lines 215-256): the requested size is snapped
to a power of two when necessary (lines 241-247); the requested olaps is
stored as given (no power-of-two check is applied to it here); then
PVAnal_realloc_memories runs. -/
noncomputable def PVAnal_new_st (sr : ℝ) (size olaps : ℕ) : PVAnalSt :=
  PVAnal_realloc_st (PVAnal_base sr (snapPow2 size) olaps)

/-- Embedding of PVAnal_setSize (lines 265-283): snap the new size, keep
olaps, reallocate. -/
noncomputable def PVAnal_setSize_st (s : PVAnalSt) (size : ℕ) : PVAnalSt :=
  PVAnal_realloc_st { s with size := snapPow2 size }

/-- Embedding of PVAnal_setOverlaps (lines 285-303): snap the new olaps,
keep size, reallocate. -/
noncomputable def PVAnal_setOverlaps_st (s : PVAnalSt) (olaps : ℕ) : PVAnalSt :=
  PVAnal_realloc_st { s with olaps := snapPow2 olaps }

/-- Embedding of the C library function atan2(y, x) over ideal reals, as
the argument of the complex number x + y i; in particular atan2(0,0) = 0,
matching the C convention. -/
noncomputable def atan2 (y x : ℝ) : ℝ :=
  Complex.arg ⟨x, y⟩

open Classical in
/-- First unwrapping loop of PVAnal_process (line 141):
while (tmp > PI) tmp -= TWOPI. -/
noncomputable def wrapDown (x : ℝ) : ℝ :=
  if x > Real.pi then wrapDown (x - 2 * Real.pi) else x
termination_by (⌈(x - Real.pi) / (2 * Real.pi)⌉).toNat
decreasing_by
  have hpi := Real.pi_pos
  have key : (x - 2 * Real.pi - Real.pi) / (2 * Real.pi)
      = (x - Real.pi) / (2 * Real.pi) - 1 := by
    field_simp
    ring
  have hceil : ⌈(x - 2 * Real.pi - Real.pi) / (2 * Real.pi)⌉
      = ⌈(x - Real.pi) / (2 * Real.pi)⌉ - 1 := by
    rw [key, Int.ceil_sub_one]
  have hpos : 0 < ⌈(x - Real.pi) / (2 * Real.pi)⌉ := by
    rw [Int.ceil_pos]
    have : 0 < x - Real.pi := by linarith
    positivity
  omega

open Classical in
/-- Second unwrapping loop of PVAnal_process (line 142):
while (tmp < -PI) tmp += TWOPI. -/
noncomputable def wrapUp (x : ℝ) : ℝ :=
  if x < -Real.pi then wrapUp (x + 2 * Real.pi) else x
termination_by (⌈(-Real.pi - x) / (2 * Real.pi)⌉).toNat
decreasing_by
  have hpi := Real.pi_pos
  have key : (-Real.pi - (x + 2 * Real.pi)) / (2 * Real.pi)
      = (-Real.pi - x) / (2 * Real.pi) - 1 := by
    field_simp
    ring
  have hceil : ⌈(-Real.pi - (x + 2 * Real.pi)) / (2 * Real.pi)⌉
      = ⌈(-Real.pi - x) / (2 * Real.pi)⌉ - 1 := by
    rw [key, Int.ceil_sub_one]
  have hpos : 0 < ⌈(-Real.pi - x) / (2 * Real.pi)⌉ := by
    rw [Int.ceil_pos]
    have : 0 < -Real.pi - x := by linarith
    positivity
  omega

/-- Phase-delta unwrapping of PVAnal_process (lines 141-142): both while
loops in source order. -/
noncomputable def unwrap (x : ℝ) : ℝ :=
  wrapUp (wrapDown x)

/-- Per-bin body of the analysis loop (PVAnal_process lines 134-145):
from the unpacked spectrum values and the previous phase of bin k, produce
the new lastPhase, the published magnitude and the published frequency. -/
noncomputable def PVAnal_binStep (scale factor : ℝ) (realv imagv : ℝ)
    (k : ℕ) (lastPhase : ℝ) : ℝ × ℝ × ℝ :=
  let mag := Real.sqrt (realv * realv + imagv * imagv)
  let phase := atan2 imagv realv
  let tmp := unwrap (phase - lastPhase)
  (phase, mag, (tmp + k * scale) * factor)

/-- Frame body of PVAnal_process (lines 122-151), run when the input buffer
is full: rotate and window into inframe, forward FFT (the external
realfft_split, passed as the parameter fft), unpack real/imag, run the
per-bin loop, shift the input buffer left by hopsize and advance the
overlap counter. -/
noncomputable def PVAnal_frame (fft : (ℕ → ℝ) → ℕ → ℝ) (window : ℕ → ℝ)
    (s : PVAnalSt) : PVAnalSt :=
  let mod := s.hopsize * s.overcount
  let inframe := (List.range s.size).foldl
    (fun acc k => Function.update acc ((k + mod) % s.size) (s.input_buffer k * window k))
    s.inframe
  let outframe := fft inframe
  let real := Function.update s.real 0 (outframe 0)
  let imag := Function.update s.imag 0 0
  let real := (List.range' 1 (s.hsize - 1)).foldl
    (fun acc k => Function.update acc k (outframe k)) real
  let imag := (List.range' 1 (s.hsize - 1)).foldl
    (fun acc k => Function.update acc k (outframe (s.size - k))) imag
  let t := (List.range s.hsize).foldl
    (fun t k =>
      let r := PVAnal_binStep s.scale s.factor (real k) (imag k) k (t.1 k)
      (Function.update t.1 k r.1,
       Function.update t.2.1 k r.2.1,
       Function.update t.2.2 k r.2.2))
    (s.lastPhase, s.magn s.overcount, s.freq s.overcount)
  let input_buffer := (List.range s.inputLatency).foldl
    (fun acc k => Function.update acc k (acc (k + s.hopsize))) s.input_buffer
  { s with
    inframe := inframe
    outframe := outframe
    real := real
    imag := imag
    lastPhase := t.1
    magn := Function.update s.magn s.overcount t.2.1
    freq := Function.update s.freq s.overcount t.2.2
    input_buffer := input_buffer
    overcount := if s.olaps ≤ s.overcount + 1 then 0 else s.overcount + 1 }

/-- Per-sample body of PVAnal_process (lines 116-152): store the sample,
record the write cursor in count, advance incount, and on buffer fill reset
incount to inputLatency and run the frame body. -/
noncomputable def PVAnal_sampleStep (fft : (ℕ → ℝ) → ℕ → ℝ) (window : ℕ → ℝ)
    (s : PVAnalSt) (i : ℕ) (x : ℝ) : PVAnalSt :=
  let s := { s with
    input_buffer := Function.update s.input_buffer s.incount x
    count := Function.update s.count i s.incount
    incount := s.incount + 1 }
  if s.size ≤ s.incount then
    PVAnal_frame fft window { s with incount := s.inputLatency }
  else s

/-- Embedding of PVAnal_process (lines 110-154): one audio block of
bufsize samples, input read from the stream function in. -/
noncomputable def PVAnal_process (fft : (ℕ → ℝ) → ℕ → ℝ) (window : ℕ → ℝ)
    (input : ℕ → ℝ) (bufsize : ℕ) (s : PVAnalSt) : PVAnalSt :=
  (List.range bufsize).foldl (fun s i => PVAnal_sampleStep fft window s i (input i)) s

/-- Count invariant of the analyzer: the configuration satisfies
inputLatency + hopsize = size with a positive hopsize, the write cursor
stays in [inputLatency, size), and every published count entry does too. -/
def AnalCountInv (s : PVAnalSt) : Prop :=
  s.inputLatency + s.hopsize = s.size ∧ 0 < s.hopsize ∧
  s.inputLatency ≤ s.incount ∧ s.incount < s.size ∧
  ∀ i, s.inputLatency ≤ s.count i ∧ s.count i < s.size

/-- State of a PVSynth node (struct PVSynth, lines 382-407).  The length
recorded for the overlap-add accumulator (size + hopsize at allocation,
line 431) is carried explicitly as outputAccumLen. -/
structure PVSynthSt where
  size : ℕ
  olaps : ℕ
  hsize : ℕ
  hopsize : ℕ
  inputLatency : ℕ
  overcount : ℕ
  sr : ℝ
  ampscl : ℝ
  factor : ℝ
  scale : ℝ
  output_buffer : ℕ → ℝ
  outputAccumLen : ℕ
  outputAccum : ℕ → ℝ
  inframe : ℕ → ℝ
  outframe : ℕ → ℝ
  real : ℕ → ℝ
  imag : ℕ → ℝ
  sumPhase : ℕ → ℝ
  data : ℕ → ℝ

/-- Synthesizer coefficient factor = hopsize * TWOPI / sr (line 415). -/
noncomputable def PVSynth_factor (sr : ℝ) (hopsize : ℕ) : ℝ :=
  hopsize * (2 * Real.pi) / sr

/-- Synthesizer coefficient scale = sr / size (line 416). -/
noncomputable def PVSynth_scale (sr : ℝ) (size : ℕ) : ℝ :=
  sr / size

/-- Embedding of PVSynth_realloc_memories (lines 410-440): recompute the
derived configuration, zero all buffers, and grow the overlap-add
accumulator to size + hopsize entries, all zero. -/
noncomputable def PVSynth_realloc_st (s : PVSynthSt) : PVSynthSt :=
  let hsize := s.size / 2
  let hopsize := s.size / s.olaps
  let inputLatency := s.size - hopsize
  { s with
    hsize := hsize
    hopsize := hopsize
    factor := PVSynth_factor s.sr hopsize
    scale := PVSynth_scale s.sr s.size
    inputLatency := inputLatency
    overcount := 0
    ampscl := 1 / Real.sqrt s.olaps
    output_buffer := fun _ => 0
    inframe := fun _ => 0
    outframe := fun _ => 0
    sumPhase := fun _ => 0
    real := fun _ => 0
    imag := fun _ => 0
    outputAccumLen := s.size + hopsize
    outputAccum := fun _ => 0 }

/-- Fresh PVSynth state before the first reallocation (PVSynth_new sets
size = 1024 and olaps = 4 and then reallocates). -/
def PVSynth_base (sr : ℝ) (size olaps : ℕ) : PVSynthSt :=
  { size := size, olaps := olaps, hsize := 0, hopsize := 0
    inputLatency := 0, overcount := 0
    sr := sr, ampscl := 0, factor := 0, scale := 0
    output_buffer := fun _ => 0, outputAccumLen := 0, outputAccum := fun _ => 0
    inframe := fun _ => 0, outframe := fun _ => 0
    real := fun _ => 0, imag := fun _ => 0, sumPhase := fun _ => 0
    data := fun _ => 0 }

/-- Rotated windowed overlap-add loop of PVSynth_process (lines 478-481):
outputAccum[k] += outframe[(k + hopsize * overcount) % size] * window[k] *
ampscl for k below size. -/
noncomputable def PVSynth_overlapAdd (s : PVSynthSt) (outframe window : ℕ → ℝ) :
    ℕ → ℝ :=
  (List.range s.size).foldl
    (fun acc k => Function.update acc k
      (acc k + outframe ((k + s.hopsize * s.overcount) % s.size) * window k * s.ampscl))
    s.outputAccum

/-- Accumulator left shift of PVSynth_process (lines 485-487):
outputAccum[k] = outputAccum[k + hopsize] for k below size. -/
noncomputable def PVSynth_shift (s : PVSynthSt) (acc0 : ℕ → ℝ) : ℕ → ℝ :=
  (List.range s.size).foldl
    (fun acc k => Function.update acc k (acc (k + s.hopsize))) acc0

/-- Frame body of PVSynth_process (lines 460-491), run at a frame edge:
phase accumulation per bin, repack, inverse FFT (the external
irealfft_split, passed as ifft), rotated windowed overlap-add into the
accumulator, copy of the first hopsize accumulator entries into the output
queue, left shift of the accumulator by hopsize, and overlap advance. -/
noncomputable def PVSynth_frame (ifft : (ℕ → ℝ) → ℕ → ℝ) (window : ℕ → ℝ)
    (magn freq : ℕ → ℕ → ℝ) (s : PVSynthSt) : PVSynthSt :=
  let t := (List.range s.hsize).foldl
    (fun t k =>
      let mag := magn s.overcount k
      let tmp := (freq s.overcount k - k * s.scale) * s.factor
      let phase := t.1 k + tmp
      (Function.update t.1 k phase,
       Function.update t.2.1 k (mag * Real.cos phase),
       Function.update t.2.2 k (mag * Real.sin phase)))
    (s.sumPhase, s.real, s.imag)
  let sumPhase := t.1
  let real := t.2.1
  let imag := t.2.2
  let inframe := Function.update (Function.update s.inframe 0 (real 0)) s.hsize 0
  let inframe := (List.range' 1 (s.hsize - 1)).foldl
    (fun acc k => Function.update (Function.update acc k (real k)) (s.size - k) (imag k))
    inframe
  let outframe := ifft inframe
  let outputAccum := PVSynth_overlapAdd s outframe window
  let output_buffer := (List.range s.hopsize).foldl
    (fun acc k => Function.update acc k (outputAccum k)) s.output_buffer
  let outputAccum := PVSynth_shift s outputAccum
  { s with
    sumPhase := sumPhase
    real := real
    imag := imag
    inframe := inframe
    outframe := outframe
    outputAccum := outputAccum
    output_buffer := output_buffer
    overcount := if s.olaps ≤ s.overcount + 1 then 0 else s.overcount + 1 }

/-- Embedding of PVSynth_process (lines 442-493): re-adapt to the upstream
FFT size and overlap count when they changed, then per sample emit the
delayed output and run the frame body at each frame edge
(count i at least size - 1). -/
noncomputable def PVSynth_process (ifft : (ℕ → ℝ) → ℕ → ℝ) (window : ℕ → ℝ)
    (magn freq : ℕ → ℕ → ℝ) (count : ℕ → ℕ) (inSize inOlaps bufsize : ℕ)
    (s : PVSynthSt) : PVSynthSt :=
  let s := if s.size ≠ inSize ∨ s.olaps ≠ inOlaps then
    PVSynth_realloc_st { s with size := inSize, olaps := inOlaps } else s
  (List.range bufsize).foldl
    (fun s i =>
      let s := { s with
        data := Function.update s.data i (s.output_buffer (count i - s.inputLatency)) }
      if s.size - 1 ≤ count i then PVSynth_frame ifft window magn freq s else s)
    s

/-- Accumulator invariant of the synthesizer: the overlap-add buffer has
size + hopsize entries and its top hopsize entries are zero. -/
def SynthAccumInv (s : PVSynthSt) : Prop :=
  s.outputAccumLen = s.size + s.hopsize ∧
  ∀ j, s.size ≤ j → j < s.size + s.hopsize → s.outputAccum j = 0

/-- C cast (int)q of a rational: truncation toward zero. -/
def ctrunc (q : ℚ) : ℤ :=
  if 0 ≤ q then ⌊q⌋ else ⌈q⌉

/-- Frame transform of PVTranspose (shared body of PVTranspose_process_i
lines 879-890 and PVTranspose_process_a lines 917-928): clear the target
overlap slot over bins [0, hsize), then for each source bin k write
magn and freq at index (int)(k * transpo) when that index is below hsize.
Target slots are indexed by the C int, hence by ℤ. -/
def PVTranspose_frame (hsize : ℕ) (transpo : ℚ) (magnIn freqIn : ℕ → ℚ)
    (mOld fOld : ℤ → ℚ) : (ℤ → ℚ) × (ℤ → ℚ) :=
  let cleared : (ℤ → ℚ) × (ℤ → ℚ) :=
    ((List.range hsize).foldl (fun acc (k : ℕ) => Function.update acc (k : ℤ) 0) mOld,
     (List.range hsize).foldl (fun acc (k : ℕ) => Function.update acc (k : ℤ) 0) fOld)
  (List.range hsize).foldl
    (fun mf (k : ℕ) =>
      let idx : ℤ := ctrunc ((k : ℚ) * transpo)
      if idx < (hsize : ℤ) then
        (Function.update mf.1 idx (mf.1 idx + magnIn k),
         Function.update mf.2 idx (freqIn k * transpo))
      else mf)
    cleared

/-- List of the source bins of one transpose frame that write into target
bin j, in the order the loop visits them. -/
def PVTranspose_writers (hsize : ℕ) (transpo : ℚ) (j : ℤ) : List ℕ :=
  (List.range hsize).filter
    (fun k => decide (ctrunc ((k : ℚ) * transpo) = j ∧ ctrunc ((k : ℚ) * transpo) < (hsize : ℤ)))

/-- Linear gate threshold thresh = MYPOW(10.0, thresh * 0.05)
(PVGate_process_ii line 1782). -/
noncomputable def PVGate_threshLin (thresh : ℝ) : ℝ :=
  (10 : ℝ) ^ (thresh * 0.05)

open Classical in
/-- Frame transform of PVGate (PVGate_process_ii lines 1793-1800): per bin,
damp the magnitude when it is below the linear threshold, and pass the
frequency through. -/
noncomputable def PVGate_frame (hsize : ℕ) (thresh damp : ℝ)
    (magnIn freqIn mOld fOld : ℕ → ℝ) : (ℕ → ℝ) × (ℕ → ℝ) :=
  (List.range hsize).foldl
    (fun mf k =>
      let mag := magnIn k
      (Function.update mf.1 k (if mag < thresh then mag * damp else mag),
       Function.update mf.2 k (freqIn k)))
    (mOld, fOld)

/-- Parameter clamp of PVVerb (lines 1243-1246 and 1248-1251): pin into
the interval from 0 to 1. -/
def PVVerb_clamp (x : ℚ) : ℚ :=
  if x < 0 then 0 else if x > 1 then 1 else x

/-- Mapped decay rate revtime = revtime * 0.25 + 0.75 after clamping
(line 1247). -/
def PVVerb_rmap (revtime : ℚ) : ℚ :=
  PVVerb_clamp revtime * 0.25 + 0.75

/-- Mapped per-bin damping damp = damp * 0.003 + 0.997 after clamping
(line 1252). -/
def PVVerb_dmap (damp : ℚ) : ℚ :=
  PVVerb_clamp damp * 0.003 + 0.997

/-- Frame transform of PVVerb with already-mapped coefficients r and d
(PVVerb_process_ii lines 1263-1272): per ascending bin, spectral envelope
follower with instant attack and decay scaled by the running amp, which
starts at 1 and is multiplied by d after each bin.  Returns the final amp,
the updated follower table and the output magnitude and frequency slots. -/
def PVVerb_frame (hsize : ℕ) (r d : ℚ) (l magnIn freqIn mOld fOld : ℕ → ℚ) :
    ℚ × (ℕ → ℚ) × (ℕ → ℚ) × (ℕ → ℚ) :=
  (List.range hsize).foldl
    (fun t k =>
      let mag := magnIn k
      let v := if mag > t.2.1 k then mag else mag + (t.2.1 k - mag) * r * t.1
      (t.1 * d,
       Function.update t.2.1 k v,
       Function.update t.2.2.1 k v,
       Function.update t.2.2.2 k (freqIn k)))
    (1, l, mOld, fOld)

/-- Per-frame behavior of PVVerb_process_ii (lines 1241-1272): clamp and
map both parameters, then run the frame transform. -/
def PVVerb_process_frame (hsize : ℕ) (revtime damp : ℚ)
    (l magnIn freqIn mOld fOld : ℕ → ℚ) :
    ℚ × (ℕ → ℚ) × (ℕ → ℚ) × (ℕ → ℚ) :=
  PVVerb_frame hsize (PVVerb_rmap revtime) (PVVerb_dmap damp) l magnIn freqIn mOld fOld

/-- Evaluation of a loop that writes v k into cell k for k below n. -/
lemma foldl_update_apply {α : Type} (n : ℕ) (v : ℕ → α) (g : ℕ → α) (j : ℕ) :
    ((List.range n).foldl (fun acc k => Function.update acc k (v k)) g) j
      = if j < n then v j else g j := by
  induction n with
  | zero => simp
  | succ n ih =>
    rw [List.range_succ, List.foldl_append, List.foldl_cons, List.foldl_nil]
    by_cases h : j = n
    · subst h
      rw [Function.update_same, if_pos (Nat.lt_succ_self _)]
    · rw [Function.update_noteq h, ih]
      rcases Nat.lt_or_ge j n with hlt | hge
      · rw [if_pos hlt, if_pos (by omega)]
      · rw [if_neg (by omega), if_neg (by omega)]

/-- Cells whose index a loop never writes keep their initial value, for any
loop body that updates the cell of the visited index. -/
lemma foldl_update_not_mem {α : Type} (l : List ℕ) (F : (ℕ → α) → ℕ → α)
    (g : ℕ → α) (j : ℕ) (hj : j ∉ l) :
    (l.foldl (fun acc k => Function.update acc k (F acc k)) g) j = g j := by
  induction l generalizing g with
  | nil => rfl
  | cons a l ih =>
    simp only [List.mem_cons, not_or] at hj
    rw [List.foldl_cons, ih _ hj.2, Function.update_noteq hj.1]

/-- Evaluation of an accumulation loop acc[k] += c k over k below n. -/
lemma foldl_accum (n : ℕ) (c : ℕ → ℝ) (g : ℕ → ℝ) (j : ℕ) :
    ((List.range n).foldl (fun acc k => Function.update acc k (acc k + c k)) g) j
      = if j < n then g j + c j else g j := by
  induction n with
  | zero => simp
  | succ n ih =>
    rw [List.range_succ, List.foldl_append, List.foldl_cons, List.foldl_nil]
    by_cases h : j = n
    · subst h
      rw [Function.update_same,
        foldl_update_not_mem (List.range j) (fun acc k => acc k + c k) g j (by simp),
        if_pos (Nat.lt_succ_self _)]
    · rw [Function.update_noteq h, ih]
      rcases Nat.lt_or_ge j n with hlt | hge
      · rw [if_pos hlt, if_pos (by omega)]
      · rw [if_neg (by omega), if_neg (by omega)]

/-- Evaluation of the left-shift loop acc[k] = acc[k + h] over k below n:
the loop reads each source cell before any write reaches it. -/
lemma foldl_shift (n h : ℕ) (g : ℕ → ℝ) (j : ℕ) :
    ((List.range n).foldl (fun acc k => Function.update acc k (acc (k + h))) g) j
      = if j < n then g (j + h) else g j := by
  induction n generalizing j with
  | zero => simp
  | succ n ih =>
    rw [List.range_succ, List.foldl_append, List.foldl_cons, List.foldl_nil]
    by_cases hj : j = n
    · subst hj
      rw [Function.update_same, ih, if_neg (by omega), if_pos (Nat.lt_succ_self _)]
    · rw [Function.update_noteq hj, ih]
      rcases Nat.lt_or_ge j n with hlt | hge
      · rw [if_pos hlt, if_pos (by omega)]
      · rw [if_neg (by omega), if_neg (by omega)]

/-- A loop updating both components of a pair at the visited index, with
values independent of the accumulator, splits into two loops. -/
lemma foldl_pair (l : List ℕ) (a b : ℕ → ℝ) (g1 g2 : ℕ → ℝ) :
    (l.foldl (fun mf k => (Function.update mf.1 k (a k), Function.update mf.2 k (b k)))
      (g1, g2))
      = (l.foldl (fun m k => Function.update m k (a k)) g1,
         l.foldl (fun f k => Function.update f k (b k)) g2) := by
  induction l generalizing g1 g2 with
  | nil => rfl
  | cons x l ih => rw [List.foldl_cons, List.foldl_cons, List.foldl_cons, ih]

/-- Characterization of the C test (x != 0) && ((x & (x - 1)) == 0): it
holds exactly of the powers of two. -/
lemma isPowerOfTwo_true_iff (x : ℕ) : isPowerOfTwo x = true ↔ ∃ j, x = 2 ^ j := by
  constructor
  · intro h
    unfold isPowerOfTwo at h
    simp only [ne_eq, Bool.and_eq_true, decide_eq_true_eq, beq_iff_eq] at h
    obtain ⟨hx, hand⟩ := h
    refine ⟨x.log2, ?_⟩
    have h1 : 2 ^ x.log2 ≤ x := Nat.log2_self_le hx
    have h2 : x < 2 ^ (x.log2 + 1) := Nat.lt_log2_self
    by_contra hne
    have hlt : 2 ^ x.log2 < x := lt_of_le_of_ne h1 (fun hh => hne hh.symm)
    set j := x.log2 with hj
    have hpow : 2 ^ (j + 1) = 2 * 2 ^ j := by rw [pow_succ]; ring
    have hdiv1 : x / 2 ^ j = 1 :=
      Nat.div_eq_of_lt_le (by simpa using h1) (by omega)
    have hdiv2 : (x - 1) / 2 ^ j = 1 :=
      Nat.div_eq_of_lt_le (by simp only [one_mul]; omega) (by omega)
    have hb1 : x.testBit j = true := by
      rw [Nat.testBit_to_div_mod, hdiv1]
      rfl
    have hb2 : (x - 1).testBit j = true := by
      rw [Nat.testBit_to_div_mod, hdiv2]
      rfl
    have hland : (x &&& (x - 1)).testBit j = true := by
      rw [Nat.testBit_land, hb1, hb2]
      rfl
    rw [hand, Nat.zero_testBit] at hland
    exact Bool.false_ne_true hland
  · rintro ⟨j, rfl⟩
    have hand : 2 ^ j &&& (2 ^ j - 1) = 0 := by
      apply Nat.eq_of_testBit_eq
      intro i
      rw [Nat.testBit_land, Nat.zero_testBit, Nat.testBit_two_pow_sub_one]
      by_cases h : j = i
      · subst h
        simp
      · rw [Nat.testBit_two_pow_of_ne h]
        rfl
    unfold isPowerOfTwo
    simp [hand]

/-- The snapping loop, with fuel on the measure: its result is at least v. -/
lemma snapLoop_ge_aux (v : ℕ) :
    ∀ n k (hk : 0 < k), v - k ≤ n → v ≤ snapLoop v k hk := by
  intro n
  induction n with
  | zero =>
    intro k hk hn
    rw [snapLoop.eq_def]
    split
    · omega
    · omega
  | succ n ih =>
    intro k hk hn
    rw [snapLoop.eq_def]
    split
    · exact ih (2 * k) (by omega) (by omega)
    · omega

/-- The snapping loop never goes below v. -/
lemma snapLoop_ge (v k : ℕ) (hk : 0 < k) : v ≤ snapLoop v k hk :=
  snapLoop_ge_aux v (v - k) k hk le_rfl

/-- The snapping loop, started at a power of two, ends at a power of two. -/
lemma snapLoop_pow_aux (v : ℕ) :
    ∀ n k (hk : 0 < k) j, k = 2 ^ j → v - k ≤ n → ∃ m, snapLoop v k hk = 2 ^ m := by
  intro n
  induction n with
  | zero =>
    intro k hk j hkj hn
    rw [snapLoop.eq_def]
    split
    · omega
    · exact ⟨j, hkj⟩
  | succ n ih =>
    intro k hk j hkj hn
    rw [snapLoop.eq_def]
    split
    · exact ih (2 * k) (by omega) (j + 1) (by rw [hkj, pow_succ]; ring) (by omega)
    · exact ⟨j, hkj⟩

/-- The snapping loop result is minimal among powers of two at least v. -/
lemma snapLoop_min_aux (v : ℕ) :
    ∀ n k (hk : 0 < k) j m, k = 2 ^ j → j ≤ m → v ≤ 2 ^ m → v - k ≤ n →
      snapLoop v k hk ≤ 2 ^ m := by
  intro n
  induction n with
  | zero =>
    intro k hk j m hkj hjm hv hn
    rw [snapLoop.eq_def]
    split
    · omega
    · exact hkj ▸ Nat.pow_le_pow_right (by norm_num) hjm
  | succ n ih =>
    intro k hk j m hkj hjm hv hn
    rw [snapLoop.eq_def]
    split
    · rename_i h
      have hjm' : j < m := by
        rcases lt_or_eq_of_le hjm with hlt | heq
        · exact hlt
        · subst heq
          omega
      exact ih (2 * k) (by omega) (j + 1) m (by rw [hkj, pow_succ]; ring) hjm' hv (by omega)
    · exact hkj ▸ Nat.pow_le_pow_right (by norm_num) hjm

/-- The snapped value is always a power of two. -/
lemma snapPow2_pow (v : ℕ) : ∃ m, snapPow2 v = 2 ^ m := by
  unfold snapPow2
  split
  · rename_i h
    exact (isPowerOfTwo_true_iff v).mp h
  · exact snapLoop_pow_aux v (v - 1) 1 (by decide) 0 rfl le_rfl

/-- The snapped value is never below the request. -/
lemma snapPow2_ge (v : ℕ) : v ≤ snapPow2 v := by
  unfold snapPow2
  split
  · exact le_rfl
  · exact snapLoop_ge v 1 (by decide)

/-- A request that is not a power of two snaps to a strictly larger value. -/
lemma snapPow2_gt (v : ℕ) (hv : isPowerOfTwo v = false) : v < snapPow2 v := by
  rcases snapPow2_pow v with ⟨m, hm⟩
  refine lt_of_le_of_ne (snapPow2_ge v) fun he => ?_
  have : isPowerOfTwo v = true := (isPowerOfTwo_true_iff v).mpr ⟨m, by omega⟩
  rw [hv] at this
  exact Bool.false_ne_true this

/-- The snapped value is the least power of two at least the request. -/
lemma snapPow2_min (v m : ℕ) (hm : v ≤ 2 ^ m) : snapPow2 v ≤ 2 ^ m := by
  unfold snapPow2
  split
  · exact hm
  · exact snapLoop_min_aux v (v - 1) 1 (by decide) 0 m rfl (Nat.zero_le m) hm le_rfl

/-- A power of two is left unchanged by the snap. -/
lemma snapPow2_of_pow (v : ℕ) (hv : isPowerOfTwo v = true) : snapPow2 v = v := by
  unfold snapPow2
  rw [if_pos hv]

/-- Claim C1, counterexample: at construction PVAnal_new snaps only size;
a requested olaps of 3 is stored unchanged, so after construction olaps is
not a power of two, contradicting the claim that both size and olaps are
snapped at construction. -/
theorem PVAnal_new_does_not_snap_olaps :
    (PVAnal_new_st 1 1024 3).olaps = 3 ∧
    ¬ ∃ j : ℕ, (PVAnal_new_st 1 1024 3).olaps = 2 ^ j := by
  have h1 : (PVAnal_new_st 1 1024 3).olaps = 3 := rfl
  refine ⟨h1, ?_⟩
  rw [h1]
  rintro ⟨j, hj⟩
  have h2 : isPowerOfTwo 3 = true := (isPowerOfTwo_true_iff 3).mpr ⟨j, hj⟩
  exact absurd h2 (by decide)

/-- Claim C1 (amended): construction snaps only the requested size (olaps
is stored as requested); setSize snaps the new size and keeps olaps;
setOverlaps snaps the new olaps and keeps size; a non-power-of-two request
v is replaced by the least power of two exceeding it, and a power-of-two
request is kept; afterwards the snapped parameter is a power of two. -/
theorem pvanal_snap_amended (sr : ℝ) (size olaps v w m : ℕ) (c : PVAnalSt)
    (hv : isPowerOfTwo v = false) (hw : isPowerOfTwo w = true) (hm : v ≤ 2 ^ m) :
    (∃ j, (PVAnal_new_st sr size olaps).size = 2 ^ j) ∧
    (PVAnal_new_st sr size olaps).olaps = olaps ∧
    (∃ j, (PVAnal_setSize_st c v).size = 2 ^ j) ∧
    (PVAnal_setSize_st c v).olaps = c.olaps ∧
    (∃ j, (PVAnal_setOverlaps_st c v).olaps = 2 ^ j) ∧
    (PVAnal_setOverlaps_st c v).size = c.size ∧
    v < snapPow2 v ∧
    snapPow2 v ≤ 2 ^ m ∧
    snapPow2 w = w := by
  refine ⟨?_, rfl, ?_, rfl, ?_, rfl, snapPow2_gt v hv, snapPow2_min v m hm,
    snapPow2_of_pow w hw⟩
  · exact snapPow2_pow size
  · exact snapPow2_pow v
  · exact snapPow2_pow v

/-- Witness for pvanal_snap_amended at a concrete configuration: request
size 1000 with olaps 3, snap value 1000 against the bound 1024, and the
power of two 4. -/
theorem pvanal_snap_amended_witness :
    isPowerOfTwo 1000 = false ∧ isPowerOfTwo 4 = true ∧ 1000 ≤ 2 ^ 10 ∧
    ((∃ j, (PVAnal_new_st 1 1000 3).size = 2 ^ j) ∧
     (PVAnal_new_st 1 1000 3).olaps = 3 ∧
     (∃ j, (PVAnal_setSize_st (PVAnal_base 1 8 2) 1000).size = 2 ^ j) ∧
     (PVAnal_setSize_st (PVAnal_base 1 8 2) 1000).olaps = (PVAnal_base 1 8 2).olaps ∧
     (∃ j, (PVAnal_setOverlaps_st (PVAnal_base 1 8 2) 1000).olaps = 2 ^ j) ∧
     (PVAnal_setOverlaps_st (PVAnal_base 1 8 2) 1000).size = (PVAnal_base 1 8 2).size ∧
     1000 < snapPow2 1000 ∧
     snapPow2 1000 ≤ 2 ^ 10 ∧
     snapPow2 4 = 4) :=
  ⟨by decide, by decide, by decide,
    pvanal_snap_amended 1 1000 3 1000 4 10 (PVAnal_base 1 8 2)
      (by decide) (by decide) (by decide)⟩

/-- Claim C3 (confirmed): the synthesizer frequency-to-phase conversion
(freq - k * scale_s) * factor_s exactly inverts the analyzer phase-to-
frequency conversion (delta + k * scale) * factor, so the sumPhase
increment for a bin fed with the analyzer output equals the analyzer
unwrapped phase delta. -/
theorem pv_freq_phase_inverse (sr : ℝ) (size olaps hopsize k : ℕ) (d : ℝ)
    (hsr : 0 < sr) (hh : hopsize = size / olaps) (hhpos : 0 < hopsize)
    (hspos : 0 < size) :
    ((d + k * PVAnal_scale size hopsize) * PVAnal_factor sr hopsize
      - k * PVSynth_scale sr size) * PVSynth_factor sr hopsize = d := by
  unfold PVAnal_scale PVAnal_factor PVSynth_scale PVSynth_factor
  have hpi : Real.pi ≠ 0 := Real.pi_ne_zero
  have h1 : (hopsize : ℝ) ≠ 0 := Nat.cast_ne_zero.mpr (by omega)
  have h2 : (size : ℝ) ≠ 0 := Nat.cast_ne_zero.mpr (by omega)
  have h3 : sr ≠ 0 := ne_of_gt hsr
  field_simp
  ring

/-- Witness for pv_freq_phase_inverse: sampleRate 2, size 4, olaps 2,
hopsize 2, bin 1, phase delta 1. -/
theorem pv_freq_phase_inverse_witness :
    (0 : ℝ) < 2 ∧ 2 = 4 / 2 ∧ 0 < 2 ∧ 0 < 4 ∧
    (((1 : ℝ) + 1 * PVAnal_scale 4 2) * PVAnal_factor 2 2
      - 1 * PVSynth_scale 2 4) * PVSynth_factor 2 2 = 1 :=
  ⟨by norm_num, by decide, by decide, by decide, by
    have h := pv_freq_phase_inverse 2 4 2 2 1 1 (by norm_num) (by decide)
      (by decide) (by decide)
    exact_mod_cast h⟩

/-- Claim C4 (confirmed): after PVAnal_realloc_memories and
PVSynth_realloc_memories on a legal power-of-two configuration with
size at least twice olaps, the derived fields satisfy hsize = size / 2,
hopsize = size / olaps, hopsize * olaps = size, inputLatency = size -
hopsize, inputLatency + hopsize = size, incount = inputLatency (analyzer)
and overcount = 0. -/
theorem pv_realloc_config (s : PVAnalSt) (s2 : PVSynthSt) (a b a2 b2 : ℕ)
    (hs : s.size = 2 ^ a) (ho : s.olaps = 2 ^ b) (h2 : 2 * s.olaps ≤ s.size)
    (hs2 : s2.size = 2 ^ a2) (ho2 : s2.olaps = 2 ^ b2) (h22 : 2 * s2.olaps ≤ s2.size) :
    (PVAnal_realloc_st s).hsize = s.size / 2 ∧
    (PVAnal_realloc_st s).hopsize = s.size / s.olaps ∧
    (PVAnal_realloc_st s).hopsize * s.olaps = s.size ∧
    (PVAnal_realloc_st s).inputLatency = s.size - (PVAnal_realloc_st s).hopsize ∧
    (PVAnal_realloc_st s).inputLatency + (PVAnal_realloc_st s).hopsize = s.size ∧
    (PVAnal_realloc_st s).incount = (PVAnal_realloc_st s).inputLatency ∧
    (PVAnal_realloc_st s).overcount = 0 ∧
    (PVSynth_realloc_st s2).hsize = s2.size / 2 ∧
    (PVSynth_realloc_st s2).hopsize = s2.size / s2.olaps ∧
    (PVSynth_realloc_st s2).hopsize * s2.olaps = s2.size ∧
    (PVSynth_realloc_st s2).inputLatency = s2.size - (PVSynth_realloc_st s2).hopsize ∧
    (PVSynth_realloc_st s2).inputLatency + (PVSynth_realloc_st s2).hopsize = s2.size ∧
    (PVSynth_realloc_st s2).overcount = 0 := by
  have hba : b + 1 ≤ a := by
    have hle : (2 : ℕ) ^ (b + 1) ≤ 2 ^ a := by
      rw [pow_succ, mul_comm, ← hs, ← ho]
      exact h2
    exact (Nat.pow_le_pow_iff_right (by norm_num)).mp hle
  have hba2 : b2 + 1 ≤ a2 := by
    have hle : (2 : ℕ) ^ (b2 + 1) ≤ 2 ^ a2 := by
      rw [pow_succ, mul_comm, ← hs2, ← ho2]
      exact h22
    exact (Nat.pow_le_pow_iff_right (by norm_num)).mp hle
  have hdvd : s.olaps ∣ s.size := by
    rw [hs, ho]
    exact pow_dvd_pow 2 (by omega)
  have hdvd2 : s2.olaps ∣ s2.size := by
    rw [hs2, ho2]
    exact pow_dvd_pow 2 (by omega)
  have hmul : s.size / s.olaps * s.olaps = s.size := Nat.div_mul_cancel hdvd
  have hmul2 : s2.size / s2.olaps * s2.olaps = s2.size := Nat.div_mul_cancel hdvd2
  have hle : s.size / s.olaps ≤ s.size := Nat.div_le_self _ _
  have hle2 : s2.size / s2.olaps ≤ s2.size := Nat.div_le_self _ _
  refine ⟨rfl, rfl, hmul, rfl, ?_, rfl, rfl, rfl, rfl, hmul2, rfl, ?_, rfl⟩
  · show s.size - s.size / s.olaps + s.size / s.olaps = s.size
    omega
  · show s2.size - s2.size / s2.olaps + s2.size / s2.olaps = s2.size
    omega

/-- Witness for pv_realloc_config: size 8, olaps 2 for both nodes. -/
theorem pv_realloc_config_witness :
    (PVAnal_base 1 8 2).size = 2 ^ 3 ∧ (PVAnal_base 1 8 2).olaps = 2 ^ 1 ∧
    2 * (PVAnal_base 1 8 2).olaps ≤ (PVAnal_base 1 8 2).size ∧
    (PVSynth_base 1 8 2).size = 2 ^ 3 ∧ (PVSynth_base 1 8 2).olaps = 2 ^ 1 ∧
    2 * (PVSynth_base 1 8 2).olaps ≤ (PVSynth_base 1 8 2).size ∧
    ((PVAnal_realloc_st (PVAnal_base 1 8 2)).hopsize * (PVAnal_base 1 8 2).olaps
      = (PVAnal_base 1 8 2).size ∧
     (PVAnal_realloc_st (PVAnal_base 1 8 2)).inputLatency
      + (PVAnal_realloc_st (PVAnal_base 1 8 2)).hopsize = (PVAnal_base 1 8 2).size) :=
  ⟨by decide, by decide, by decide, by decide, by decide, by decide,
    (pv_realloc_config (PVAnal_base 1 8 2) (PVSynth_base 1 8 2) 3 1 3 1
      (by decide) (by decide) (by decide) (by decide) (by decide) (by decide)).2.2.1,
    ((pv_realloc_config (PVAnal_base 1 8 2) (PVSynth_base 1 8 2) 3 1 3 1
      (by decide) (by decide) (by decide) (by decide) (by decide) (by decide)).2.2.2.2.1)⟩

/-- Value of atan2 at the origin: the C convention atan2(0,0) = 0. -/
lemma atan2_zero : atan2 0 0 = 0 := by
  unfold atan2
  have h : (⟨0, 0⟩ : ℂ) = 0 := by
    apply Complex.ext <;> simp
  rw [h, Complex.arg_zero]

/-- The first unwrapping loop does not run on arguments at most pi. -/
lemma wrapDown_of_le (x : ℝ) (h : x ≤ Real.pi) : wrapDown x = x := by
  rw [wrapDown.eq_def, if_neg (not_lt.mpr h)]

/-- The second unwrapping loop does not run on arguments at least minus pi. -/
lemma wrapUp_of_ge (x : ℝ) (h : -Real.pi ≤ x) : wrapUp x = x := by
  rw [wrapUp.eq_def, if_neg (not_lt.mpr h)]

/-- Unwrapping is the identity on the closed interval from minus pi to pi. -/
lemma unwrap_small (x : ℝ) (h1 : -Real.pi ≤ x) (h2 : x ≤ Real.pi) : unwrap x = x := by
  unfold unwrap
  rw [wrapDown_of_le x h2, wrapUp_of_ge x h1]

/-- Claim C2, counterexample: with prior per-bin state lastPhase = pi / 2,
a zero bin (real = imag = 0) at sampleRate 4, size 4, hopsize 2 and bin 1
publishes frequency 1 / 2, not k * sampleRate / size = 1: the published
frequency does depend on the prior per-bin state. -/
theorem pv_zero_bin_freq_counterexample :
    (PVAnal_binStep (PVAnal_scale 4 2) (PVAnal_factor 4 2) 0 0 1 (Real.pi / 2)).2.2
      = 1 / 2 ∧
    ((1 : ℕ) : ℝ) * 4 / ((4 : ℕ) : ℝ) = 1 ∧ ((1 : ℝ) / 2) ≠ 1 := by
  refine ⟨?_, by norm_num, by norm_num⟩
  show (unwrap (atan2 0 0 - Real.pi / 2) + ((1 : ℕ) : ℝ) * PVAnal_scale 4 2)
      * PVAnal_factor 4 2 = 1 / 2
  rw [atan2_zero, zero_sub]
  have hu : unwrap (-(Real.pi / 2)) = -(Real.pi / 2) :=
    unwrap_small _ (by linarith [Real.pi_pos]) (by linarith [Real.pi_pos])
  rw [hu]
  unfold PVAnal_scale PVAnal_factor
  have hpi : Real.pi ≠ 0 := Real.pi_ne_zero
  push_cast
  field_simp
  ring

/-- Claim C2 (amended): a bin with real = imag = 0 gets phase
atan2(0,0) = 0 and magnitude 0, with no failure; its published frequency
equals k * sampleRate / size provided the prior per-bin state
lastPhase[k] is 0 (as when the input has been silent since reconfigure);
for other prior states the unwrapped delta of minus lastPhase[k] enters
the published value, as the counterexample shows. -/
theorem pv_zero_bin_amended (sr : ℝ) (size hopsize k : ℕ) (lp : ℝ)
    (hh : 0 < hopsize) (hs : 0 < size) (hlp : lp = 0) :
    PVAnal_binStep (PVAnal_scale size hopsize) (PVAnal_factor sr hopsize) 0 0 k lp
      = (0, 0, (k : ℝ) * sr / (size : ℝ)) := by
  subst hlp
  have c3 : (unwrap (atan2 0 0 - 0) + (k : ℝ) * PVAnal_scale size hopsize)
      * PVAnal_factor sr hopsize = (k : ℝ) * sr / (size : ℝ) := by
    rw [atan2_zero, sub_self]
    rw [unwrap_small 0 (by linarith [Real.pi_pos]) Real.pi_pos.le, zero_add]
    unfold PVAnal_scale PVAnal_factor
    have hpi : Real.pi ≠ 0 := Real.pi_ne_zero
    have h1 : (hopsize : ℝ) ≠ 0 := Nat.cast_ne_zero.mpr (by omega)
    have h2 : (size : ℝ) ≠ 0 := Nat.cast_ne_zero.mpr (by omega)
    field_simp
    ring
  show (atan2 0 0, Real.sqrt ((0 : ℝ) * 0 + 0 * 0),
      (unwrap (atan2 0 0 - 0) + (k : ℝ) * PVAnal_scale size hopsize)
        * PVAnal_factor sr hopsize)
    = (0, 0, (k : ℝ) * sr / (size : ℝ))
  rw [c3, atan2_zero]
  norm_num

/-- Witness for pv_zero_bin_amended: sampleRate 4, size 4, hopsize 2,
bin 1, prior lastPhase 0. -/
theorem pv_zero_bin_amended_witness :
    0 < 2 ∧ 0 < 4 ∧ (0 : ℝ) = 0 ∧
    PVAnal_binStep (PVAnal_scale 4 2) (PVAnal_factor 4 2) 0 0 1 0
      = (0, 0, ((1 : ℕ) : ℝ) * 4 / ((4 : ℕ) : ℝ)) :=
  ⟨by decide, by decide, rfl,
    pv_zero_bin_amended 4 4 2 1 0 (by decide) (by decide) rfl⟩

/-- Splitting of the PVGate frame loop into its magnitude and frequency
components. -/
lemma PVGate_frame_eq (hsize : ℕ) (T damp : ℝ) (magnIn freqIn mOld fOld : ℕ → ℝ) :
    PVGate_frame hsize T damp magnIn freqIn mOld fOld
      = ((List.range hsize).foldl
          (fun m k => Function.update m k
            (if magnIn k < T then magnIn k * damp else magnIn k)) mOld,
         (List.range hsize).foldl
          (fun f k => Function.update f k (freqIn k)) fOld) := by
  unfold PVGate_frame
  exact foldl_pair (List.range hsize)
    (fun k => if magnIn k < T then magnIn k * damp else magnIn k) freqIn mOld fOld

/-- Per-bin magnitude of a PVGate frame. -/
lemma PVGate_frame_magn_apply (hsize : ℕ) (T damp : ℝ)
    (magnIn freqIn mOld fOld : ℕ → ℝ) (k : ℕ) :
    (PVGate_frame hsize T damp magnIn freqIn mOld fOld).1 k
      = if k < hsize then (if magnIn k < T then magnIn k * damp else magnIn k)
        else mOld k := by
  rw [PVGate_frame_eq]
  exact foldl_update_apply hsize _ mOld k

/-- Per-bin frequency of a PVGate frame. -/
lemma PVGate_frame_freq_apply (hsize : ℕ) (T damp : ℝ)
    (magnIn freqIn mOld fOld : ℕ → ℝ) (k : ℕ) :
    (PVGate_frame hsize T damp magnIn freqIn mOld fOld).2 k
      = if k < hsize then freqIn k else fOld k := by
  rw [PVGate_frame_eq]
  exact foldl_update_apply hsize _ fOld k

/-- Claim C6 (confirmed): PVGate with threshold thresh in dB converts it to
the linear T = 10 ^ (thresh / 20) and per bin outputs mag * damp when
mag < T and mag unchanged otherwise, always passing the frequency
through. -/
theorem pv_gate_frame_spec (hsize : ℕ) (th damp : ℝ)
    (magnIn freqIn mOld fOld : ℕ → ℝ) (k : ℕ) (hk : k < hsize) :
    (PVGate_frame hsize (PVGate_threshLin th) damp magnIn freqIn mOld fOld).1 k
      = (if magnIn k < PVGate_threshLin th then magnIn k * damp else magnIn k) ∧
    (PVGate_frame hsize (PVGate_threshLin th) damp magnIn freqIn mOld fOld).2 k
      = freqIn k ∧
    PVGate_threshLin th = (10 : ℝ) ^ (th / 20) := by
  refine ⟨?_, ?_, ?_⟩
  · rw [PVGate_frame_magn_apply, if_pos hk]
  · rw [PVGate_frame_freq_apply, if_pos hk]
  · unfold PVGate_threshLin
    rw [show th * 0.05 = th / 20 by ring]

/-- Witness for pv_gate_frame_spec: one bin, threshold 0 dB, damp 2,
input magnitude 3 and frequency 5. -/
theorem pv_gate_frame_spec_witness :
    0 < 1 ∧
    ((PVGate_frame 1 (PVGate_threshLin 0) 2 (fun _ => 3) (fun _ => 5)
        (fun _ => 0) (fun _ => 0)).1 0
      = (if (fun _ => (3:ℝ)) 0 < PVGate_threshLin 0
          then (fun _ => (3:ℝ)) 0 * 2 else (fun _ => (3:ℝ)) 0) ∧
     (PVGate_frame 1 (PVGate_threshLin 0) 2 (fun _ => 3) (fun _ => 5)
        (fun _ => 0) (fun _ => 0)).2 0 = (fun _ => (5:ℝ)) 0 ∧
     PVGate_threshLin 0 = (10 : ℝ) ^ ((0:ℝ) / 20)) :=
  ⟨by decide,
    pv_gate_frame_spec 1 0 2 (fun _ => 3) (fun _ => 5) (fun _ => 0) (fun _ => 0)
      0 (by decide)⟩

/-- Unrolling of the last bin of the PVVerb frame loop. -/
lemma PVVerb_frame_succ (r d : ℚ) (l magnIn freqIn mOld fOld : ℕ → ℚ) (n : ℕ) :
    PVVerb_frame (n + 1) r d l magnIn freqIn mOld fOld
      = ((PVVerb_frame n r d l magnIn freqIn mOld fOld).1 * d,
         Function.update (PVVerb_frame n r d l magnIn freqIn mOld fOld).2.1 n
           (if magnIn n > (PVVerb_frame n r d l magnIn freqIn mOld fOld).2.1 n
            then magnIn n
            else magnIn n
              + ((PVVerb_frame n r d l magnIn freqIn mOld fOld).2.1 n - magnIn n)
                * r * (PVVerb_frame n r d l magnIn freqIn mOld fOld).1),
         Function.update (PVVerb_frame n r d l magnIn freqIn mOld fOld).2.2.1 n
           (if magnIn n > (PVVerb_frame n r d l magnIn freqIn mOld fOld).2.1 n
            then magnIn n
            else magnIn n
              + ((PVVerb_frame n r d l magnIn freqIn mOld fOld).2.1 n - magnIn n)
                * r * (PVVerb_frame n r d l magnIn freqIn mOld fOld).1),
         Function.update (PVVerb_frame n r d l magnIn freqIn mOld fOld).2.2.2 n
           (freqIn n)) := by
  unfold PVVerb_frame
  rw [List.range_succ, List.foldl_append, List.foldl_cons, List.foldl_nil]

/-- Characterization of the PVVerb frame loop: after the n ascending bins,
the running amp is d ^ n, the follower and the output magnitude slot hold
the attack-or-decay value computed with amp = d ^ k at every bin k below n,
and the frequency slot is the pass-through. -/
lemma PVVerb_frame_spec_aux (r d : ℚ) (l magnIn freqIn mOld fOld : ℕ → ℚ) (n : ℕ) :
    (PVVerb_frame n r d l magnIn freqIn mOld fOld).1 = d ^ n ∧
    (∀ j, (PVVerb_frame n r d l magnIn freqIn mOld fOld).2.1 j
      = if j < n then
          (if magnIn j > l j then magnIn j
           else magnIn j + (l j - magnIn j) * r * d ^ j)
        else l j) ∧
    (∀ j, (PVVerb_frame n r d l magnIn freqIn mOld fOld).2.2.1 j
      = if j < n then
          (if magnIn j > l j then magnIn j
           else magnIn j + (l j - magnIn j) * r * d ^ j)
        else mOld j) ∧
    (∀ j, (PVVerb_frame n r d l magnIn freqIn mOld fOld).2.2.2 j
      = if j < n then freqIn j else fOld j) := by
  induction n with
  | zero =>
    refine ⟨by simp [PVVerb_frame], fun j => ?_, fun j => ?_, fun j => ?_⟩ <;>
      simp [PVVerb_frame]
  | succ n ih =>
    obtain ⟨ih1, ih2, ih3, ih4⟩ := ih
    have hln : (PVVerb_frame n r d l magnIn freqIn mOld fOld).2.1 n = l n := by
      rw [ih2 n, if_neg (lt_irrefl n)]
    have hval : (if magnIn n > (PVVerb_frame n r d l magnIn freqIn mOld fOld).2.1 n
        then magnIn n
        else magnIn n
          + ((PVVerb_frame n r d l magnIn freqIn mOld fOld).2.1 n - magnIn n)
            * r * (PVVerb_frame n r d l magnIn freqIn mOld fOld).1)
      = (if magnIn n > l n then magnIn n
         else magnIn n + (l n - magnIn n) * r * d ^ n) := by
      rw [hln, ih1]
    refine ⟨?_, fun j => ?_, fun j => ?_, fun j => ?_⟩
    · rw [PVVerb_frame_succ]
      dsimp only
      rw [ih1, pow_succ]
    · rw [PVVerb_frame_succ]
      dsimp only
      by_cases hj : j = n
      · subst hj
        rw [Function.update_same, hval, if_pos (Nat.lt_succ_self _)]
      · rw [Function.update_noteq hj, ih2 j]
        rcases Nat.lt_or_ge j n with hlt | hge
        · rw [if_pos hlt, if_pos (show j < n + 1 by omega)]
        · rw [if_neg (show ¬ j < n by omega), if_neg (show ¬ j < n + 1 by omega)]
    · rw [PVVerb_frame_succ]
      dsimp only
      by_cases hj : j = n
      · subst hj
        rw [Function.update_same, hval, if_pos (Nat.lt_succ_self _)]
      · rw [Function.update_noteq hj, ih3 j]
        rcases Nat.lt_or_ge j n with hlt | hge
        · rw [if_pos hlt, if_pos (show j < n + 1 by omega)]
        · rw [if_neg (show ¬ j < n by omega), if_neg (show ¬ j < n + 1 by omega)]
    · rw [PVVerb_frame_succ]
      dsimp only
      by_cases hj : j = n
      · subst hj
        rw [Function.update_same, if_pos (Nat.lt_succ_self _)]
      · rw [Function.update_noteq hj, ih4 j]
        rcases Nat.lt_or_ge j n with hlt | hge
        · rw [if_pos hlt, if_pos (show j < n + 1 by omega)]
        · rw [if_neg (show ¬ j < n by omega), if_neg (show ¬ j < n + 1 by omega)]

/-- Clamped PVVerb parameters lie between 0 and 1. -/
lemma PVVerb_clamp_mem (x : ℚ) : 0 ≤ PVVerb_clamp x ∧ PVVerb_clamp x ≤ 1 := by
  unfold PVVerb_clamp
  split_ifs with h1 h2
  · norm_num
  · norm_num
  · exact ⟨le_of_not_lt h1, le_of_not_lt h2⟩

/-- Claim C7 (confirmed): PVVerb clamps revtime and damp into [0,1], maps
them to r = 0.75 + revtime * 0.25 and d = 0.997 + damp * 0.003, iterates
bins ascending from amp = 1, emitting mag_in on attack (mag_in above the
follower) and mag_in + (L[k] - mag_in) * r * amp on decay, stores the
emitted value back in the follower, passes freq through, and multiplies
amp by d after each bin, so bin k uses amp = d ^ k. -/
theorem pv_verb_frame_spec (hsize : ℕ) (revtime damp : ℚ)
    (l magnIn freqIn mOld fOld : ℕ → ℚ) (k : ℕ) (hk : k < hsize) :
    PVVerb_rmap revtime = 0.75 + PVVerb_clamp revtime * 0.25 ∧
    PVVerb_dmap damp = 0.997 + PVVerb_clamp damp * 0.003 ∧
    0 ≤ PVVerb_clamp revtime ∧ PVVerb_clamp revtime ≤ 1 ∧
    0 ≤ PVVerb_clamp damp ∧ PVVerb_clamp damp ≤ 1 ∧
    (PVVerb_process_frame hsize revtime damp l magnIn freqIn mOld fOld).2.2.1 k
      = (if magnIn k > l k then magnIn k
         else magnIn k + (l k - magnIn k) * PVVerb_rmap revtime * PVVerb_dmap damp ^ k) ∧
    (PVVerb_process_frame hsize revtime damp l magnIn freqIn mOld fOld).2.1 k
      = (PVVerb_process_frame hsize revtime damp l magnIn freqIn mOld fOld).2.2.1 k ∧
    (PVVerb_process_frame hsize revtime damp l magnIn freqIn mOld fOld).2.2.2 k
      = freqIn k ∧
    (PVVerb_process_frame hsize revtime damp l magnIn freqIn mOld fOld).1
      = PVVerb_dmap damp ^ hsize := by
  obtain ⟨h1, h2, h3, h4⟩ := PVVerb_frame_spec_aux (PVVerb_rmap revtime)
    (PVVerb_dmap damp) l magnIn freqIn mOld fOld hsize
  refine ⟨by unfold PVVerb_rmap; ring, by unfold PVVerb_dmap; ring,
    (PVVerb_clamp_mem revtime).1, (PVVerb_clamp_mem revtime).2,
    (PVVerb_clamp_mem damp).1, (PVVerb_clamp_mem damp).2, ?_, ?_, ?_, ?_⟩
  · show (PVVerb_frame hsize (PVVerb_rmap revtime) (PVVerb_dmap damp)
      l magnIn freqIn mOld fOld).2.2.1 k = _
    rw [h3 k, if_pos hk]
  · show (PVVerb_frame hsize (PVVerb_rmap revtime) (PVVerb_dmap damp)
        l magnIn freqIn mOld fOld).2.1 k
      = (PVVerb_frame hsize (PVVerb_rmap revtime) (PVVerb_dmap damp)
        l magnIn freqIn mOld fOld).2.2.1 k
    rw [h2 k, h3 k, if_pos hk, if_pos hk]
  · show (PVVerb_frame hsize (PVVerb_rmap revtime) (PVVerb_dmap damp)
      l magnIn freqIn mOld fOld).2.2.2 k = _
    rw [h4 k, if_pos hk]
  · exact h1

/-- Witness for pv_verb_frame_spec: two bins, revtime 2 (clamps to 1),
damp -1 (clamps to 0), follower at 4, inputs 2 and 7, bin 1. -/
theorem pv_verb_frame_spec_witness :
    1 < 2 ∧
    (PVVerb_rmap 2 = 0.75 + PVVerb_clamp 2 * 0.25 ∧
     PVVerb_dmap (-1) = 0.997 + PVVerb_clamp (-1) * 0.003 ∧
     0 ≤ PVVerb_clamp 2 ∧ PVVerb_clamp 2 ≤ 1 ∧
     0 ≤ PVVerb_clamp (-1) ∧ PVVerb_clamp (-1) ≤ 1 ∧
     (PVVerb_process_frame 2 2 (-1) (fun _ => 4) (fun _ => 2) (fun j => j)
        (fun _ => 0) (fun _ => 0)).2.2.1 1
      = (if (fun _ => (2:ℚ)) 1 > (fun _ => (4:ℚ)) 1 then (fun _ => (2:ℚ)) 1
         else (fun _ => (2:ℚ)) 1 + ((fun _ => (4:ℚ)) 1 - (fun _ => (2:ℚ)) 1)
            * PVVerb_rmap 2 * PVVerb_dmap (-1) ^ 1) ∧
     (PVVerb_process_frame 2 2 (-1) (fun _ => 4) (fun _ => 2) (fun j => j)
        (fun _ => 0) (fun _ => 0)).2.1 1
      = (PVVerb_process_frame 2 2 (-1) (fun _ => 4) (fun _ => 2) (fun j => j)
        (fun _ => 0) (fun _ => 0)).2.2.1 1 ∧
     (PVVerb_process_frame 2 2 (-1) (fun _ => 4) (fun _ => 2) (fun j => j)
        (fun _ => 0) (fun _ => 0)).2.2.2 1 = (fun j => (j:ℚ)) 1 ∧
     (PVVerb_process_frame 2 2 (-1) (fun _ => 4) (fun _ => 2) (fun j => j)
        (fun _ => 0) (fun _ => 0)).1 = PVVerb_dmap (-1) ^ 2) :=
  ⟨by decide,
    pv_verb_frame_spec 2 2 (-1) (fun _ => 4) (fun _ => 2) (fun j => j)
      (fun _ => 0) (fun _ => 0) 1 (by decide)⟩

/-- Claim C10 (confirmed): for nonnegative input magnitude and follower
state, the PVVerb emitted magnitude lies between the input magnitude and
the maximum of the input magnitude and the follower (in particular it never
falls below the input), and the stored follower equals the emitted
value. -/
theorem pv_verb_mag_bounds (hsize : ℕ) (revtime damp : ℚ)
    (l magnIn freqIn mOld fOld : ℕ → ℚ) (k : ℕ) (hk : k < hsize)
    (hm : 0 ≤ magnIn k) (hl : 0 ≤ l k) :
    magnIn k ≤ (PVVerb_process_frame hsize revtime damp l magnIn freqIn mOld fOld).2.2.1 k ∧
    (PVVerb_process_frame hsize revtime damp l magnIn freqIn mOld fOld).2.2.1 k
      ≤ max (magnIn k) (l k) ∧
    (PVVerb_process_frame hsize revtime damp l magnIn freqIn mOld fOld).2.1 k
      = (PVVerb_process_frame hsize revtime damp l magnIn freqIn mOld fOld).2.2.1 k := by
  obtain ⟨h1, h2, h3, h4⟩ := PVVerb_frame_spec_aux (PVVerb_rmap revtime)
    (PVVerb_dmap damp) l magnIn freqIn mOld fOld hsize
  have hv : (PVVerb_process_frame hsize revtime damp l magnIn freqIn mOld fOld).2.2.1 k
      = (if magnIn k > l k then magnIn k
         else magnIn k + (l k - magnIn k) * PVVerb_rmap revtime * PVVerb_dmap damp ^ k) := by
    show (PVVerb_frame hsize (PVVerb_rmap revtime) (PVVerb_dmap damp)
      l magnIn freqIn mOld fOld).2.2.1 k = _
    rw [h3 k, if_pos hk]
  have hcr := PVVerb_clamp_mem revtime
  have hcd := PVVerb_clamp_mem damp
  have hr0 : 0 ≤ PVVerb_rmap revtime := by unfold PVVerb_rmap; nlinarith [hcr.1]
  have hr1 : PVVerb_rmap revtime ≤ 1 := by unfold PVVerb_rmap; nlinarith [hcr.2]
  have hd0 : 0 ≤ PVVerb_dmap damp := by unfold PVVerb_dmap; nlinarith [hcd.1]
  have hd1 : PVVerb_dmap damp ≤ 1 := by unfold PVVerb_dmap; nlinarith [hcd.2]
  have hp0 : 0 ≤ PVVerb_dmap damp ^ k := pow_nonneg hd0 k
  have hp1 : PVVerb_dmap damp ^ k ≤ 1 := pow_le_one₀ hd0 hd1
  refine ⟨?_, ?_, ?_⟩
  · rw [hv]
    split_ifs with h
    · exact le_refl _
    · have hprod : 0 ≤ (l k - magnIn k) * PVVerb_rmap revtime * PVVerb_dmap damp ^ k :=
        mul_nonneg (mul_nonneg (by linarith [le_of_not_lt h]) hr0) hp0
      linarith
  · rw [hv]
    split_ifs with h
    · exact le_max_left _ _
    · have hlm : magnIn k ≤ l k := le_of_not_lt h
      have hrp : PVVerb_rmap revtime * PVVerb_dmap damp ^ k ≤ 1 :=
        le_trans (mul_le_of_le_one_right hr0 hp1) hr1
      have hassoc : (l k - magnIn k) * PVVerb_rmap revtime * PVVerb_dmap damp ^ k
          = (l k - magnIn k) * (PVVerb_rmap revtime * PVVerb_dmap damp ^ k) :=
        mul_assoc _ _ _
      have hmul : (l k - magnIn k) * (PVVerb_rmap revtime * PVVerb_dmap damp ^ k)
          ≤ l k - magnIn k :=
        mul_le_of_le_one_right (sub_nonneg.mpr hlm) hrp
      have hvl : magnIn k + (l k - magnIn k) * PVVerb_rmap revtime
          * PVVerb_dmap damp ^ k ≤ l k := by
        rw [hassoc]
        linarith
      exact le_trans hvl (le_max_right _ _)
  · show (PVVerb_frame hsize (PVVerb_rmap revtime) (PVVerb_dmap damp)
        l magnIn freqIn mOld fOld).2.1 k
      = (PVVerb_frame hsize (PVVerb_rmap revtime) (PVVerb_dmap damp)
        l magnIn freqIn mOld fOld).2.2.1 k
    rw [h2 k, h3 k, if_pos hk, if_pos hk]

/-- Witness for pv_verb_mag_bounds: two bins, revtime 1/2, damp 1/2,
follower at 4, input magnitude 2, bin 1. -/
theorem pv_verb_mag_bounds_witness :
    1 < 2 ∧ (0:ℚ) ≤ 2 ∧ (0:ℚ) ≤ 4 ∧
    ((fun _ => (2:ℚ)) 1 ≤ (PVVerb_process_frame 2 (1/2) (1/2) (fun _ => 4)
        (fun _ => 2) (fun _ => 0) (fun _ => 0) (fun _ => 0)).2.2.1 1 ∧
     (PVVerb_process_frame 2 (1/2) (1/2) (fun _ => 4) (fun _ => 2) (fun _ => 0)
        (fun _ => 0) (fun _ => 0)).2.2.1 1 ≤ max ((fun _ => (2:ℚ)) 1) ((fun _ => (4:ℚ)) 1) ∧
     (PVVerb_process_frame 2 (1/2) (1/2) (fun _ => 4) (fun _ => 2) (fun _ => 0)
        (fun _ => 0) (fun _ => 0)).2.1 1
      = (PVVerb_process_frame 2 (1/2) (1/2) (fun _ => 4) (fun _ => 2) (fun _ => 0)
        (fun _ => 0) (fun _ => 0)).2.2.1 1) :=
  ⟨by decide, by decide, by decide,
    pv_verb_mag_bounds 2 (1/2) (1/2) (fun _ => 4) (fun _ => 2) (fun _ => 0)
      (fun _ => 0) (fun _ => 0) 1 (by decide) (by decide) (by decide)⟩

/-- The C cast agrees with the floor on nonnegative rationals. -/
lemma ctrunc_eq_floor (q : ℚ) (hq : 0 ≤ q) : ctrunc q = ⌊q⌋ := by
  unfold ctrunc
  rw [if_pos hq]

/-- Evaluation of the clear loop of a transpose frame over the integer-
indexed target slot. -/
lemma foldl_clear_int (n : ℕ) (g : ℤ → ℚ) (j : ℤ) :
    ((List.range n).foldl (fun acc (k : ℕ) => Function.update acc (k : ℤ) 0) g) j
      = if 0 ≤ j ∧ j < (n : ℤ) then 0 else g j := by
  induction n with
  | zero =>
    rw [if_neg (by omega)]
    rfl
  | succ n ih =>
    rw [List.range_succ, List.foldl_append, List.foldl_cons, List.foldl_nil]
    by_cases hj : j = (n : ℤ)
    · rw [hj, Function.update_same, if_pos (by constructor <;> omega)]
    · rw [Function.update_noteq (by omega), ih]
      split_ifs with h1 h2 h3
      · rfl
      · omega
      · omega
      · rfl

/-- Characterization of the transpose scan loop after n source bins: the
target magnitude accumulates the sum of the source magnitudes whose index
maps to it, and the target frequency holds the value of the last source bin
that wrote to it, each restricted to indices below hsize. -/
lemma PVTranspose_scan_aux (hsize : ℕ) (t : ℚ) (magnIn freqIn : ℕ → ℚ)
    (init : (ℤ → ℚ) × (ℤ → ℚ)) (n : ℕ) (j : ℤ) :
    (((List.range n).foldl
      (fun mf (k : ℕ) =>
        if ctrunc ((k : ℚ) * t) < (hsize : ℤ) then
          (Function.update mf.1 (ctrunc ((k : ℚ) * t))
            (mf.1 (ctrunc ((k : ℚ) * t)) + magnIn k),
           Function.update mf.2 (ctrunc ((k : ℚ) * t)) (freqIn k * t))
        else mf) init).1 j
      = init.1 j + ∑ k ∈ (Finset.range n).filter
          (fun (k : ℕ) => ctrunc ((k : ℚ) * t) = j ∧ ctrunc ((k : ℚ) * t) < (hsize : ℤ)),
          magnIn k) ∧
    (((List.range n).foldl
      (fun mf (k : ℕ) =>
        if ctrunc ((k : ℚ) * t) < (hsize : ℤ) then
          (Function.update mf.1 (ctrunc ((k : ℚ) * t))
            (mf.1 (ctrunc ((k : ℚ) * t)) + magnIn k),
           Function.update mf.2 (ctrunc ((k : ℚ) * t)) (freqIn k * t))
        else mf) init).2 j
      = (((List.range n).filter
          (fun (k : ℕ) => decide (ctrunc ((k : ℚ) * t) = j ∧
            ctrunc ((k : ℚ) * t) < (hsize : ℤ)))).getLast?).elim
          (init.2 j) (fun K => freqIn K * t)) := by
  induction n with
  | zero =>
    exact ⟨by simp, rfl⟩
  | succ n ih =>
    obtain ⟨ih1, ih2⟩ := ih
    rw [List.range_succ, List.foldl_append, List.foldl_cons, List.foldl_nil]
    by_cases hcond : ctrunc ((n : ℚ) * t) < (hsize : ℤ)
    · rw [if_pos hcond]
      by_cases hj : ctrunc ((n : ℚ) * t) = j
      · constructor
        · show Function.update _ (ctrunc ((n : ℚ) * t)) _ j = _
          rw [hj, Function.update_same, ih1, Finset.range_succ,
            Finset.filter_insert, if_pos ⟨hj, hcond⟩,
            Finset.sum_insert (by simp)]
          ring
        · show Function.update _ (ctrunc ((n : ℚ) * t)) _ j = _
          rw [hj, Function.update_same, List.filter_append]
          have hfn : List.filter
              (fun (k : ℕ) => decide (ctrunc ((k : ℚ) * t) = j ∧
                ctrunc ((k : ℚ) * t) < (hsize : ℤ))) [n] = [n] := by
            have hcond2 : j < (hsize : ℤ) := hj ▸ hcond
            simp [hj, hcond2]
          rw [hfn, List.getLast?_concat]
          rfl
      · constructor
        · show Function.update _ (ctrunc ((n : ℚ) * t)) _ j = _
          rw [Function.update_noteq (fun h => hj h.symm), ih1, Finset.range_succ,
            Finset.filter_insert, if_neg (fun hp => hj hp.1)]
        · show Function.update _ (ctrunc ((n : ℚ) * t)) _ j = _
          rw [Function.update_noteq (fun h => hj h.symm), ih2, List.filter_append]
          have hfn : List.filter
              (fun (k : ℕ) => decide (ctrunc ((k : ℚ) * t) = j ∧
                ctrunc ((k : ℚ) * t) < (hsize : ℤ))) [n] = [] := by
            simp [hj]
          rw [hfn, List.append_nil]
    · rw [if_neg hcond]
      constructor
      · rw [ih1, Finset.range_succ, Finset.filter_insert,
          if_neg (fun hp => hcond hp.2)]
      · rw [ih2, List.filter_append]
        have hfn : List.filter
            (fun (k : ℕ) => decide (ctrunc ((k : ℚ) * t) = j ∧
              ctrunc ((k : ℚ) * t) < (hsize : ℤ))) [n] = [] := by
          simp [hcond]
        rw [hfn, List.append_nil]

/-- Claim C5 (confirmed): a PVTranspose frame first zeroes the target slot
over bins [0, hsize); each source bin k with floor index k * transpo below
hsize adds its magnitude into the target bin (collisions sum) and
overwrites the target frequency with freq * transpo, so the surviving
frequency comes from the last writing source bin; source bins mapping at or
beyond hsize contribute nothing. -/
theorem pv_transpose_frame_spec (hsize : ℕ) (t : ℚ) (magnIn freqIn : ℕ → ℚ)
    (mOld fOld : ℤ → ℚ) (j : ℤ) (ht : 0 ≤ t) :
    (PVTranspose_frame hsize t magnIn freqIn mOld fOld).1 j
      = (if 0 ≤ j ∧ j < (hsize : ℤ) then 0 else mOld j)
        + ∑ k ∈ (Finset.range hsize).filter
            (fun (k : ℕ) => ⌊(k : ℚ) * t⌋ = j ∧ j < (hsize : ℤ)), magnIn k ∧
    (PVTranspose_frame hsize t magnIn freqIn mOld fOld).2 j
      = (((List.range hsize).filter
          (fun (k : ℕ) => decide (⌊(k : ℚ) * t⌋ = j ∧ j < (hsize : ℤ)))).getLast?).elim
          (if 0 ≤ j ∧ j < (hsize : ℤ) then 0 else fOld j) (fun K => freqIn K * t) := by
  have hctr : ∀ k : ℕ, ctrunc ((k : ℚ) * t) = ⌊(k : ℚ) * t⌋ := fun k =>
    ctrunc_eq_floor _ (mul_nonneg (Nat.cast_nonneg k) ht)
  have hsetf : (Finset.range hsize).filter
      (fun (k : ℕ) => ctrunc ((k : ℚ) * t) = j ∧ ctrunc ((k : ℚ) * t) < (hsize : ℤ))
      = (Finset.range hsize).filter
      (fun (k : ℕ) => ⌊(k : ℚ) * t⌋ = j ∧ j < (hsize : ℤ)) := by
    apply Finset.filter_congr
    intro k _
    rw [hctr k]
    constructor
    · rintro ⟨h1, h2⟩
      exact ⟨h1, h1 ▸ h2⟩
    · rintro ⟨h1, h2⟩
      exact ⟨h1, h1.symm ▸ h2⟩
  have hlistf : (List.range hsize).filter
      (fun (k : ℕ) => decide (ctrunc ((k : ℚ) * t) = j ∧ ctrunc ((k : ℚ) * t) < (hsize : ℤ)))
      = (List.range hsize).filter
      (fun (k : ℕ) => decide (⌊(k : ℚ) * t⌋ = j ∧ j < (hsize : ℤ))) := by
    apply List.filter_congr
    intro k _
    rw [decide_eq_decide]
    rw [hctr k]
    constructor
    · rintro ⟨h1, h2⟩
      exact ⟨h1, h1 ▸ h2⟩
    · rintro ⟨h1, h2⟩
      exact ⟨h1, h1.symm ▸ h2⟩
  obtain ⟨a1, a2⟩ := PVTranspose_scan_aux hsize t magnIn freqIn
    ((List.range hsize).foldl (fun acc (k : ℕ) => Function.update acc (k : ℤ) 0) mOld,
     (List.range hsize).foldl (fun acc (k : ℕ) => Function.update acc (k : ℤ) 0) fOld)
    hsize j
  rw [show (((List.range hsize).foldl
      (fun acc (k : ℕ) => Function.update acc (k : ℤ) 0) mOld,
      (List.range hsize).foldl
      (fun acc (k : ℕ) => Function.update acc (k : ℤ) 0) fOld) :
      (ℤ → ℚ) × (ℤ → ℚ)).1 j
    = if 0 ≤ j ∧ j < ((hsize : ℕ) : ℤ) then 0 else mOld j
    from foldl_clear_int hsize mOld j] at a1
  rw [hsetf] at a1
  rw [show (((List.range hsize).foldl
      (fun acc (k : ℕ) => Function.update acc (k : ℤ) 0) mOld,
      (List.range hsize).foldl
      (fun acc (k : ℕ) => Function.update acc (k : ℤ) 0) fOld) :
      (ℤ → ℚ) × (ℤ → ℚ)).2 j
    = if 0 ≤ j ∧ j < ((hsize : ℕ) : ℤ) then 0 else fOld j
    from foldl_clear_int hsize fOld j] at a2
  rw [hlistf] at a2
  exact ⟨a1, a2⟩

/-- Witness for pv_transpose_frame_spec: hsize 4, transpo 1/2, target bin
1 (source bins 2 and 3 collide there). -/
theorem pv_transpose_frame_spec_witness :
    (0 : ℚ) ≤ 1 / 2 ∧
    ((PVTranspose_frame 4 (1/2) (fun (k : ℕ) => (k : ℚ) + 1) (fun (k : ℕ) => (k : ℚ))
        (fun _ => 7) (fun _ => 7)).1 1
      = (if 0 ≤ (1 : ℤ) ∧ (1 : ℤ) < ((4 : ℕ) : ℤ) then 0 else (fun _ => (7:ℚ)) (1 : ℤ))
        + ∑ k ∈ (Finset.range 4).filter
            (fun (k : ℕ) => ⌊(k : ℚ) * (1/2)⌋ = (1 : ℤ) ∧ (1 : ℤ) < ((4 : ℕ) : ℤ)),
            ((fun (k : ℕ) => (k : ℚ) + 1) k) ∧
     (PVTranspose_frame 4 (1/2) (fun (k : ℕ) => (k : ℚ) + 1) (fun (k : ℕ) => (k : ℚ))
        (fun _ => 7) (fun _ => 7)).2 1
      = (((List.range 4).filter
          (fun (k : ℕ) => decide (⌊(k : ℚ) * (1/2)⌋ = (1 : ℤ) ∧ (1 : ℤ) < ((4 : ℕ) : ℤ)))).getLast?).elim
          (if 0 ≤ (1 : ℤ) ∧ (1 : ℤ) < ((4 : ℕ) : ℤ) then 0 else (fun _ => (7:ℚ)) (1 : ℤ))
          (fun K => ((fun (k : ℕ) => (k : ℚ)) K) * (1/2))) :=
  ⟨by norm_num,
    pv_transpose_frame_spec 4 (1/2) (fun (k : ℕ) => (k : ℚ) + 1) (fun (k : ℕ) => (k : ℚ))
      (fun _ => 7) (fun _ => 7) 1 (by norm_num)⟩

/-- The analyzer frame body touches no configuration field, no count entry
and not the write cursor, so it preserves the count invariant. -/
lemma PVAnal_frame_inv (fft : (ℕ → ℝ) → ℕ → ℝ) (window : ℕ → ℝ) (s : PVAnalSt)
    (h : AnalCountInv s) : AnalCountInv (PVAnal_frame fft window s) := h

/-- One analyzer sample preserves the count invariant: the recorded count
entry is the old cursor, and the cursor either advances inside the window
or resets to inputLatency on a frame edge. -/
lemma PVAnal_sampleStep_inv (fft : (ℕ → ℝ) → ℕ → ℝ) (window : ℕ → ℝ)
    (s : PVAnalSt) (i : ℕ) (x : ℝ) (h : AnalCountInv s) :
    AnalCountInv (PVAnal_sampleStep fft window s i x) := by
  obtain ⟨h1, h2, h3, h4, h5⟩ := h
  unfold PVAnal_sampleStep
  dsimp only
  split_ifs with hc
  · apply PVAnal_frame_inv
    refine ⟨h1, h2, le_refl _, ?_, fun i2 => ?_⟩
    · show s.inputLatency < s.size
      omega
    · show s.inputLatency ≤ Function.update s.count i s.incount i2 ∧
        Function.update s.count i s.incount i2 < s.size
      rcases eq_or_ne i2 i with rfl | hne
      · rw [Function.update_same]
        exact ⟨h3, h4⟩
      · rw [Function.update_noteq hne]
        exact h5 i2
  · have hc2 : s.incount + 1 < s.size := by
      rcases Nat.lt_or_ge (s.incount + 1) s.size with hlt | hge
      · exact hlt
      · exact absurd hge hc
    refine ⟨h1, h2, show s.inputLatency ≤ s.incount + 1 by omega, hc2, fun i2 => ?_⟩
    show s.inputLatency ≤ Function.update s.count i s.incount i2 ∧
      Function.update s.count i s.incount i2 < s.size
    rcases eq_or_ne i2 i with rfl | hne
    · rw [Function.update_same]
      exact ⟨h3, h4⟩
    · rw [Function.update_noteq hne]
      exact h5 i2

/-- A whole analyzer block preserves the count invariant. -/
lemma PVAnal_process_inv (fft : (ℕ → ℝ) → ℕ → ℝ) (window input : ℕ → ℝ)
    (bufsize : ℕ) (s : PVAnalSt) (h : AnalCountInv s) :
    AnalCountInv (PVAnal_process fft window input bufsize s) := by
  unfold PVAnal_process
  have key : ∀ (l : List ℕ) (s : PVAnalSt), AnalCountInv s →
      AnalCountInv (l.foldl (fun s i => PVAnal_sampleStep fft window s i (input i)) s) := by
    intro l
    induction l with
    | nil => exact fun s hs => hs
    | cons a l ih =>
      intro s hs
      exact ih _ (PVAnal_sampleStep_inv fft window s a (input a) hs)
  exact key _ s h

/-- Reallocation on a legal power-of-two configuration establishes the
count invariant. -/
lemma PVAnal_realloc_inv (s : PVAnalSt) (a b : ℕ)
    (hs : s.size = 2 ^ a) (ho : s.olaps = 2 ^ b) (hba : b ≤ a) :
    AnalCountInv (PVAnal_realloc_st s) := by
  have hpos : 0 < s.size / s.olaps := by
    rw [hs, ho, Nat.pow_div hba (by norm_num)]
    exact Nat.pow_pos (by norm_num)
  have hle : s.size / s.olaps ≤ s.size := Nat.div_le_self _ _
  have hsz : 0 < s.size := by
    rw [hs]
    exact Nat.pow_pos (by norm_num)
  refine ⟨?_, hpos, ?_, ?_, fun i => ⟨?_, ?_⟩⟩
  · show s.size - s.size / s.olaps + s.size / s.olaps = s.size
    omega
  · show s.size - s.size / s.olaps ≤ s.size - s.size / s.olaps
    exact le_refl _
  · show s.size - s.size / s.olaps < s.size
    omega
  · show s.size - s.size / s.olaps ≤ s.size - s.size / s.olaps
    exact le_refl _
  · show s.size - s.size / s.olaps < s.size
    omega

/-- Claim C9 (confirmed): on a legal power-of-two configuration, the count
invariant (every published count entry in [inputLatency, size - 1], and
likewise the write cursor) is established by PVAnal_realloc_memories, where
every count entry equals inputLatency, and preserved by every
PVAnal_process call; consequently the synthesizer read index
count[i] - inputLatency lies in [0, hopsize), and the frame-edge tests
count[i] = size - 1 and count[i] >= size - 1 agree. -/
theorem pv_anal_count_bounds (s0 : PVAnalSt) (a b : ℕ)
    (hs : s0.size = 2 ^ a) (ho : s0.olaps = 2 ^ b) (hba : b ≤ a)
    (fft : (ℕ → ℝ) → ℕ → ℝ) (window input : ℕ → ℝ) (bufsize : ℕ)
    (s : PVAnalSt) (hInv : AnalCountInv s) (i : ℕ) :
    AnalCountInv (PVAnal_realloc_st s0) ∧
    (PVAnal_realloc_st s0).count i = (PVAnal_realloc_st s0).inputLatency ∧
    AnalCountInv (PVAnal_process fft window input bufsize s) ∧
    s.inputLatency ≤ s.count i ∧ s.count i ≤ s.size - 1 ∧
    s.count i - s.inputLatency < s.hopsize ∧
    ((s.count i = s.size - 1) ↔ (s.size - 1 ≤ s.count i)) := by
  obtain ⟨h1, h2, h3, h4, h5⟩ := hInv
  obtain ⟨hci, hci2⟩ := h5 i
  refine ⟨PVAnal_realloc_inv s0 a b hs ho hba, rfl,
    PVAnal_process_inv fft window input bufsize s ⟨h1, h2, h3, h4, h5⟩,
    hci, by omega, by omega, by omega⟩

/-- Witness for pv_anal_count_bounds: size 4 = 2 ^ 2, olaps 2 = 2 ^ 1, the
identity as FFT stub, zero window and input, one-sample block, starting
from the reallocated state. -/
theorem pv_anal_count_bounds_witness :
    (PVAnal_base 1 4 2).size = 2 ^ 2 ∧ (PVAnal_base 1 4 2).olaps = 2 ^ 1 ∧ 1 ≤ 2 ∧
    AnalCountInv (PVAnal_realloc_st (PVAnal_base 1 4 2)) ∧
    (AnalCountInv (PVAnal_realloc_st (PVAnal_base 1 4 2)) ∧
     (PVAnal_realloc_st (PVAnal_base 1 4 2)).count 0
       = (PVAnal_realloc_st (PVAnal_base 1 4 2)).inputLatency ∧
     AnalCountInv (PVAnal_process (fun f => f) (fun _ => 0) (fun _ => 0) 1
       (PVAnal_realloc_st (PVAnal_base 1 4 2))) ∧
     (PVAnal_realloc_st (PVAnal_base 1 4 2)).inputLatency
       ≤ (PVAnal_realloc_st (PVAnal_base 1 4 2)).count 0 ∧
     (PVAnal_realloc_st (PVAnal_base 1 4 2)).count 0
       ≤ (PVAnal_realloc_st (PVAnal_base 1 4 2)).size - 1 ∧
     (PVAnal_realloc_st (PVAnal_base 1 4 2)).count 0
       - (PVAnal_realloc_st (PVAnal_base 1 4 2)).inputLatency
       < (PVAnal_realloc_st (PVAnal_base 1 4 2)).hopsize ∧
     (((PVAnal_realloc_st (PVAnal_base 1 4 2)).count 0
       = (PVAnal_realloc_st (PVAnal_base 1 4 2)).size - 1)
      ↔ ((PVAnal_realloc_st (PVAnal_base 1 4 2)).size - 1
       ≤ (PVAnal_realloc_st (PVAnal_base 1 4 2)).count 0))) :=
  ⟨rfl, rfl, by decide,
    ⟨by decide, by decide, by decide, by decide,
      fun _ => ⟨show (2:ℕ) ≤ 2 by decide, show (2:ℕ) < 4 by decide⟩⟩,
    pv_anal_count_bounds (PVAnal_base 1 4 2) 2 1 rfl rfl (by decide)
      (fun f => f) (fun _ => 0) (fun _ => 0) 1
      (PVAnal_realloc_st (PVAnal_base 1 4 2))
      ⟨by decide, by decide, by decide, by decide,
        fun _ => ⟨show (2:ℕ) ≤ 2 by decide, show (2:ℕ) < 4 by decide⟩⟩ 0⟩

/-- Reallocation always reestablishes the accumulator invariant: the
buffer is grown to size + hopsize entries and zeroed. -/
lemma PVSynth_realloc_inv (s : PVSynthSt) : SynthAccumInv (PVSynth_realloc_st s) :=
  ⟨rfl, fun _ _ _ => rfl⟩

/-- The accumulator after a synthesis frame is the shift of the overlap-add
of some inverse-FFT output. -/
lemma PVSynth_frame_accum (ifft : (ℕ → ℝ) → ℕ → ℝ) (window : ℕ → ℝ)
    (magn freq : ℕ → ℕ → ℝ) (s : PVSynthSt) :
    ∃ f : ℕ → ℝ, (PVSynth_frame ifft window magn freq s).outputAccum
      = PVSynth_shift s (PVSynth_overlapAdd s f window) :=
  ⟨_, rfl⟩

/-- The overlap-add loop writes only cells below size. -/
lemma PVSynth_overlapAdd_out (s : PVSynthSt) (f w : ℕ → ℝ) (j : ℕ)
    (hj : s.size ≤ j) : PVSynth_overlapAdd s f w j = s.outputAccum j := by
  unfold PVSynth_overlapAdd
  exact foldl_update_not_mem (List.range s.size)
    (fun acc k => acc k + f ((k + s.hopsize * s.overcount) % s.size) * w k * s.ampscl)
    s.outputAccum j (by simp only [List.mem_range]; omega)

/-- Pointwise value of the accumulator shift. -/
lemma PVSynth_shift_apply (s : PVSynthSt) (acc0 : ℕ → ℝ) (j : ℕ) :
    PVSynth_shift s acc0 j = if j < s.size then acc0 (j + s.hopsize) else acc0 j := by
  unfold PVSynth_shift
  exact foldl_shift s.size s.hopsize acc0 j

/-- A synthesis frame preserves the accumulator invariant: neither the
overlap-add nor the shift writes at or beyond size. -/
lemma PVSynth_frame_inv (ifft : (ℕ → ℝ) → ℕ → ℝ) (window : ℕ → ℝ)
    (magn freq : ℕ → ℕ → ℝ) (s : PVSynthSt) (h : SynthAccumInv s) :
    SynthAccumInv (PVSynth_frame ifft window magn freq s) := by
  obtain ⟨h1, h2⟩ := h
  obtain ⟨f, hf⟩ := PVSynth_frame_accum ifft window magn freq s
  constructor
  · exact h1
  · intro j hj1 hj2
    have hj1b : s.size ≤ j := hj1
    have hj2b : j < s.size + s.hopsize := hj2
    show (PVSynth_frame ifft window magn freq s).outputAccum j = 0
    rw [hf, PVSynth_shift_apply, if_neg (by omega),
      PVSynth_overlapAdd_out s f window j hj1b]
    exact h2 j hj1b hj2b

/-- A whole synthesizer block preserves the accumulator invariant, also
through the upstream-adaptation reallocation. -/
lemma PVSynth_process_inv (ifft : (ℕ → ℝ) → ℕ → ℝ) (window : ℕ → ℝ)
    (magn freq : ℕ → ℕ → ℝ) (count : ℕ → ℕ) (inSize inOlaps bufsize : ℕ)
    (s : PVSynthSt) (h : SynthAccumInv s) :
    SynthAccumInv (PVSynth_process ifft window magn freq count inSize inOlaps bufsize s) := by
  have key : ∀ (l : List ℕ) (st : PVSynthSt), SynthAccumInv st →
      SynthAccumInv (l.foldl (fun st i =>
        let st2 := { st with data := Function.update st.data i (st.output_buffer (count i - st.inputLatency)) }
        if st2.size - 1 ≤ count i then PVSynth_frame ifft window magn freq st2
        else st2) st) := by
    intro l
    induction l with
    | nil => exact fun st hst => hst
    | cons a l ih =>
      intro st hst
      apply ih
      dsimp only
      split_ifs with hc
      · exact PVSynth_frame_inv ifft window magn freq _ hst
      · exact hst
  unfold PVSynth_process
  dsimp only
  split_ifs with had
  · exact key _ _ (PVSynth_realloc_inv _)
  · exact key _ _ h

/-- Claim C8 (confirmed): the overlap-add accumulator has size + hopsize
entries; its top hopsize entries are zero after reconfigure and stay zero
through every PVSynth_process call, since the accumulate, copy and shift
steps write only below size; consequently the shift pulls zeros into the
vacated tail [size - hopsize, size). -/
theorem pv_synth_accum_invariant (s0 : PVSynthSt)
    (ifft : (ℕ → ℝ) → ℕ → ℝ) (window : ℕ → ℝ) (magn freq : ℕ → ℕ → ℝ)
    (count : ℕ → ℕ) (inSize inOlaps bufsize : ℕ)
    (s : PVSynthSt) (hInv : SynthAccumInv s) (hhs : s.hopsize ≤ s.size)
    (j : ℕ) (hj1 : s.size - s.hopsize ≤ j) (hj2 : j < s.size) :
    SynthAccumInv (PVSynth_realloc_st s0) ∧
    SynthAccumInv (PVSynth_process ifft window magn freq count inSize inOlaps bufsize s) ∧
    (PVSynth_frame ifft window magn freq s).outputAccum j = 0 := by
  obtain ⟨h1, h2⟩ := hInv
  obtain ⟨f, hf⟩ := PVSynth_frame_accum ifft window magn freq s
  refine ⟨PVSynth_realloc_inv s0,
    PVSynth_process_inv ifft window magn freq count inSize inOlaps bufsize s ⟨h1, h2⟩, ?_⟩
  show (PVSynth_frame ifft window magn freq s).outputAccum j = 0
  rw [hf, PVSynth_shift_apply, if_pos hj2,
    PVSynth_overlapAdd_out s f window (j + s.hopsize) (by omega)]
  exact h2 (j + s.hopsize) (by omega) (by omega)

/-- Witness for pv_synth_accum_invariant: size 8, olaps 2 (hopsize 4),
identity FFT stub, zero window and tables, one-sample block with count 7,
tail index 5. -/
theorem pv_synth_accum_invariant_witness :
    SynthAccumInv (PVSynth_realloc_st (PVSynth_base 1 8 2)) ∧
    (PVSynth_realloc_st (PVSynth_base 1 8 2)).hopsize
      ≤ (PVSynth_realloc_st (PVSynth_base 1 8 2)).size ∧
    (PVSynth_realloc_st (PVSynth_base 1 8 2)).size
      - (PVSynth_realloc_st (PVSynth_base 1 8 2)).hopsize ≤ 5 ∧
    5 < (PVSynth_realloc_st (PVSynth_base 1 8 2)).size ∧
    (SynthAccumInv (PVSynth_realloc_st (PVSynth_base 1 8 2)) ∧
     SynthAccumInv (PVSynth_process (fun g => g) (fun _ => 0) (fun _ _ => 0)
       (fun _ _ => 0) (fun _ => 7) 8 2 1 (PVSynth_realloc_st (PVSynth_base 1 8 2))) ∧
     (PVSynth_frame (fun g => g) (fun _ => 0) (fun _ _ => 0) (fun _ _ => 0)
       (PVSynth_realloc_st (PVSynth_base 1 8 2))).outputAccum 5 = 0) :=
  ⟨⟨rfl, fun _ _ _ => rfl⟩, by decide, by decide, by decide,
    pv_synth_accum_invariant (PVSynth_base 1 8 2) (fun g => g) (fun _ => 0)
      (fun _ _ => 0) (fun _ _ => 0) (fun _ => 7) 8 2 1
      (PVSynth_realloc_st (PVSynth_base 1 8 2)) ⟨rfl, fun _ _ _ => rfl⟩
      (by decide) 5 (by decide) (by decide)⟩

end PV
